import Mathlib

/-!
Shallow embedding of `src/utils.py` of the `visionary` repository, and proofs
about the claims of its specification.

Conventions of the embedding:
* numpy floating-point matrices are modelled as `List (List ℚ)` (rows of entries);
  the only genuinely irrational quantity (the Pearson correlation, which divides
  by a square root) lives in `ℝ`, wrapped in `Option` to model scipy's NaN and
  error outcomes on degenerate inputs.
* Python strings are Lean `String`s; the regex character classes `[a-zA-Z]` and
  the digits stripped by the spec's description are modelled by explicit
  code-point ranges on `Char`.
* Filesystem and network effects (`download_it_data`, the PCA pickle cache) are
  modelled by explicit state passing: the relevant piece of the file system is a
  field of a state record that every effectful function consumes and returns.
* `sklearn.decomposition.PCA` is external library code; its fitted component
  matrix is abstracted as a `PCAEngine` carrying the library's documented shape
  contract, while centering and the matrix products of `transform` are concrete.
-/

/-! ### Character classes and string order -/

/-- The regex character class `[a-zA-Z]` of `encode_object_base_labels`:
ASCII letters, by code point. -/
def isAsciiAlpha (c : Char) : Bool :=
  decide ((65 ≤ c.toNat ∧ c.toNat ≤ 90) ∨ (97 ≤ c.toNat ∧ c.toNat ≤ 122))

/-- The ASCII digit class `[0-9]`, by code point. -/
def isAsciiDigit (c : Char) : Bool :=
  decide (48 ≤ c.toNat ∧ c.toNat ≤ 57)

/-- Lexicographic (code-point) order on character lists, as Python compares
strings in `sorted`. -/
def strLeAux : List Char → List Char → Bool
  | [], _ => true
  | _ :: _, [] => false
  | a :: as, b :: bs =>
    if a.toNat < b.toNat then true
    else if a.toNat = b.toNat then strLeAux as bs
    else false

/-- Python's string order: lexicographic by code point. -/
def strLe (a b : String) : Bool := strLeAux a.data b.data

/-- The order `strLe` as a decidable relation, for sorting. -/
def strLeOrd (a b : String) : Prop := strLe a b = true

instance : DecidableRel strLeOrd := fun a b => inferInstanceAs (Decidable (strLe a b = true))

/-! ### Label encoding (`encode_object_base_labels`) -/

/-- One step of the list comprehension
`[re.match(r'[a-zA-Z]+', obj).group() for obj in objects_train]`:
`re.match` anchors at the start of the string, so `.group()` is the maximal
leading run of ASCII letters; when the string does not start with an ASCII
letter the match is `None` and `.group()` raises, modelled by `none`. -/
def baseNameOf (s : String) : Option String :=
  let run := s.data.takeWhile isAsciiAlpha
  if run = [] then none else some (String.mk run)

/-- A Python list comprehension whose body may raise: `none` as soon as one
element fails, otherwise the list of results. -/
def traverseOption {α β : Type} (f : α → Option β) : List α → Option (List β)
  | [] => some []
  | a :: as =>
    match f a, traverseOption f as with
    | some b, some bs => some (b :: bs)
    | _, _ => none

/-- The dict comprehension `{base: idx for idx, base in enumerate(unique_bases)}`,
as an association list in enumeration order starting at index `n`. -/
def enumIdx : Nat → List String → List (String × Nat)
  | _, [] => []
  | n, b :: bs => (b, n) :: enumIdx (n + 1) bs

/-- A Python dict lookup `label_dict[base]` on the association list:
`none` models the (here unreachable) `KeyError`. -/
def dictLookup (dict : List (String × Nat)) (b : String) : Option Nat :=
  (dict.find? (fun p => p.1 == b)).map Prod.snd

/-- Embedding of `encode_object_base_labels` (src/utils.py:149-173):
base names by leading-letter regex match, `sorted(set(...))`, enumeration into
a dict, then a dict lookup per sample.  `none` models an uncaught exception. -/
def encode_object_base_labels (objs : List String) :
    Option (List (String × Nat) × List Nat) :=
  match traverseOption baseNameOf objs with
  | none => none
  | some base_names =>
    let unique_bases := List.insertionSort strLeOrd base_names.dedup
    let label_dict := enumIdx 0 unique_bases
    match traverseOption (dictLookup label_dict) base_names with
    | none => none
    | some object_labels => some (label_dict, object_labels)

/-- Modelled from the spec: the spec describes the base label as "the string
with its trailing digits removed" — remove the maximal run of ASCII digits at
the end of the string, leaving everything else intact. -/
def stripTrailingDigits (s : String) : String :=
  String.mk ((s.data.reverse.dropWhile isAsciiDigit).reverse)

/-- Whether a string begins with an ASCII alphabetic character. -/
def startsWithAsciiAlpha (s : String) : Bool :=
  match s.data with
  | [] => false
  | c :: _ => isAsciiAlpha c

/-! ### Matrices and shared numeric helpers -/

/-- A numpy 2-d array, as a list of rows. -/
abbrev Mat := List (List ℚ)

/-- The column count `y.shape[1]` of a (well-formed) matrix. -/
def matWidth (y : Mat) : Nat := (y.headD []).length

/-- Column `i` of a matrix. -/
def colOf (y : Mat) (i : Nat) : List ℚ := y.map (fun r => r.getD i 0)

/-- All columns of a matrix, in order. -/
def columnsOf (y : Mat) : List (List ℚ) := (List.range (matWidth y)).map (colOf y)

/-- The numpy mean of a vector (division in ℚ; the empty mean is 0/0 = 0). -/
def listMean (l : List ℚ) : ℚ := l.sum / l.length

/-- Residual sum of squares between two equally long vectors. -/
def ssRes (t p : List ℚ) : ℚ := ((t.zip p).map (fun q => (q.1 - q.2) ^ 2)).sum

/-- Total sum of squared deviations from the mean. -/
def ssTot (t : List ℚ) : ℚ := (t.map (fun x => (x - listMean t) ^ 2)).sum

/-- The biased variance `average((l - mean(l))**2)` used by
`sklearn.metrics.explained_variance_score`. -/
def varOf (l : List ℚ) : ℚ := listMean (l.map (fun x => (x - listMean l) ^ 2))

/-! ### Metrics (`compute_metrics`) -/

/-- Per-output R², with sklearn's conventions for a zero denominator:
a constant ground truth scores 1 for a perfect prediction and 0 otherwise. -/
def r2PerOutput (t p : List ℚ) : ℚ :=
  if ssTot t ≠ 0 then 1 - ssRes t p / ssTot t
  else if ssRes t p ≠ 0 then 0 else 1

/-- The model of `sklearn.metrics.r2_score` with the default uniform average
over outputs; `none` models the `ValueError` raised on fewer than two samples. -/
def r2_score (y_true y_pred : Mat) : Option ℚ :=
  if y_true.length < 2 then none
  else
    some (listMean ((((columnsOf y_true).zip (columnsOf y_pred)).map
      (fun c => r2PerOutput c.1 c.2))))

/-- Per-output mean squared error. -/
def msePerOutput (t p : List ℚ) : ℚ :=
  listMean ((t.zip p).map (fun q => (q.1 - q.2) ^ 2))

/-- Per-output mean absolute error. -/
def maePerOutput (t p : List ℚ) : ℚ :=
  listMean ((t.zip p).map (fun q => |q.1 - q.2|))

/-- The float64 machine epsilon 2⁻⁵² that sklearn substitutes for a zero
denominator in the mean absolute percentage error. -/
def mapeEps : ℚ := 1 / 4503599627370496

/-- Per-output mean absolute percentage error, sklearn's definition. -/
def mapePerOutput (t p : List ℚ) : ℚ :=
  listMean ((t.zip p).map (fun q => |q.1 - q.2| / max |q.1| mapeEps))

/-- Per-output explained variance, sklearn's definition with its zero-denominator
conventions. -/
def evPerOutput (t p : List ℚ) : ℚ :=
  let diff := (t.zip p).map (fun q => q.1 - q.2)
  if varOf t ≠ 0 then 1 - varOf diff / varOf t
  else if varOf diff ≠ 0 then 0 else 1

/-- The model of `scipy.stats.pearsonr` (first component only, as used by
`compute_metrics`): `none` models both the error raised on fewer than two
observations and the NaN produced for a constant input. -/
noncomputable def pearsonr (x y : List ℚ) : Option ℝ :=
  if x.length < 2 then none
  else if ssTot x = 0 ∨ ssTot y = 0 then none
  else
    some
      ((((x.zip y).map
          (fun q => (q.1 - listMean x) * (q.2 - listMean y))).sum : ℚ) /
        Real.sqrt (((ssTot x : ℚ) : ℝ) * ((ssTot y : ℚ) : ℝ)))

/-- The numpy mean of the per-neuron correlation array: NaN-propagating, so
`none` as soon as one entry is `none`. -/
noncomputable def optionMeanR (l : List (Option ℝ)) : Option ℝ :=
  match traverseOption id l with
  | none => none
  | some vs => some (vs.sum / vs.length)

/-- The tuple returned by `compute_metrics` (src/utils.py:136-147). -/
structure Metrics where
  r2 : Option ℚ
  mse : ℚ
  mae : ℚ
  mape : ℚ
  ev : List ℚ
  ev_avg : ℚ
  corr : List (Option ℝ)
  corr_avg : Option ℝ

/-- Embedding of `compute_metrics`: every sklearn metric is taken per output
column and averaged uniformly, matching the library defaults used in the
source; the Pearson correlation is computed per column exactly as the list
comprehension does. -/
noncomputable def compute_metrics (y_true y_pred : Mat) : Metrics :=
  let pairs := (columnsOf y_true).zip (columnsOf y_pred)
  { r2 := r2_score y_true y_pred
    mse := listMean (pairs.map (fun c => msePerOutput c.1 c.2))
    mae := listMean (pairs.map (fun c => maePerOutput c.1 c.2))
    mape := listMean (pairs.map (fun c => mapePerOutput c.1 c.2))
    ev := pairs.map (fun c => evPerOutput c.1 c.2)
    ev_avg := listMean (pairs.map (fun c => evPerOutput c.1 c.2))
    corr := pairs.map (fun c => pearsonr c.1 c.2)
    corr_avg := optionMeanR (pairs.map (fun c => pearsonr c.1 c.2)) }

/-! ### PCA (`compute_pca`, `get_pca`) -/

/-- Dot product of two vectors. -/
def dotProd (u v : List ℚ) : ℚ := ((u.zip v).map (fun q => q.1 * q.2)).sum

/-- Per-column means of a matrix, the `mean_` of a fitted `sklearn` PCA. -/
def colMeans (X : Mat) : List ℚ := (List.range (matWidth X)).map (fun i => listMean (colOf X i))

/-- Row-wise centering by a mean vector. -/
def centerWith (mean : List ℚ) (X : Mat) : Mat :=
  X.map (fun r => (r.zip mean).map (fun q => q.1 - q.2))

/-- The external `sklearn.decomposition.PCA` fit, abstracted: `components k X`
is the fitted `components_` matrix for `n_components = k` on data `X`, and the
two proof fields are the library's documented shape contract — `components_`
has `k` rows of `X.shape[1]` entries whenever `k ≤ min(n_samples, n_features)`. -/
structure PCAEngine where
  components : Nat → Mat → Mat
  components_length : ∀ k X, k ≤ min X.length (matWidth X) → (components k X).length = k
  components_width : ∀ k X, k ≤ min X.length (matWidth X) →
    ∀ row ∈ components k X, row.length = matWidth X

/-- `pca.transform(X)`: center by the fitted mean and multiply by the
transposed component matrix. -/
def pcaTransform (eng : PCAEngine) (k : Nat) (X_fit X : Mat) : Mat :=
  let comps := eng.components k X_fit
  (centerWith (colMeans X_fit) X).map (fun r => comps.map (fun c => dotProd r c))

/-- Embedding of `compute_pca` (src/utils.py:86-103): fit on the training set,
transform both sets, return the pair. -/
def compute_pca (eng : PCAEngine) (X_train X_val : Mat) (n_components : Nat) : Mat × Mat :=
  (pcaTransform eng n_components X_train X_train,
   pcaTransform eng n_components X_train X_val)

/-- The pickled dict `{'X_train_pca': ..., 'X_val_pca': ...}` stored at the
fixed cache path. -/
structure PCACache where
  X_train_pca : Mat
  X_val_pca : Mat
deriving DecidableEq

/-- Embedding of `get_pca` (src/utils.py:105-134).  The state of the single
fixed cache file is passed explicitly: `cache` is its content (or `none` when
the file does not exist) and the second component of the result is the content
after the call. -/
def get_pca (eng : PCAEngine) (cache : Option PCACache) (X_train X_val : Mat)
    (n_components : Nat) : (Mat × Mat) × Option PCACache :=
  match cache with
  | some d => ((d.X_train_pca, d.X_val_pca), some d)
  | none =>
    let r := compute_pca eng X_train X_val n_components
    (r, some ⟨r.1, r.2⟩)

/-- A concrete PCA engine satisfying the shape contract (projection onto the
leading coordinate axes), used to instantiate theorems about `compute_pca`. -/
def axisEngine : PCAEngine where
  components k X :=
    (List.range k).map (fun i =>
      (List.range (matWidth X)).map (fun j => if i = j then (1 : ℚ) else 0))
  components_length := by
    intro k X _
    simp
  components_width := by
    intro k X _ row hrow
    simp only [List.mem_map] at hrow
    obtain ⟨i, _, hrow⟩ := hrow
    simp [← hrow]

/-! ### Download (`download_it_data`) -/

/-- The filesystem-and-network state `download_it_data` interacts with:
the set of existing paths and a count of downloads performed. -/
structure FSState where
  files : List String
  downloads : Nat
deriving DecidableEq

/-- The fixed target path `os.path.join(path_to_data, "IT_data.h5")`. -/
def itDataFileName (path_to_data : String) : String := path_to_data ++ "/IT_data.h5"

/-- Embedding of `download_it_data` (src/utils.py:70-76): when the target file
exists nothing happens; otherwise the archive is fetched (one network access)
and the file comes to exist. -/
def download_it_data (path_to_data : String) (s : FSState) : FSState :=
  if itDataFileName path_to_data ∈ s.files then s
  else { files := itDataFileName path_to_data :: s.files, downloads := s.downloads + 1 }

/-! ### Visualization (`visualize_img`) -/

/-- The fixed per-channel normalization mean of `visualize_img`. -/
def normalize_mean : List ℚ := [485 / 1000, 456 / 1000, 406 / 1000]

/-- The fixed per-channel normalization standard deviation of `visualize_img`. -/
def normalize_std : List ℚ := [229 / 1000, 224 / 1000, 225 / 1000]

/-- A rank-3 tensor: one stimulus image. -/
abbrev Image := List (List (List ℚ))

/-- The axis permutation `np.transpose(img, [1,2,0])` taking a
channel × height × width image to height × width × channel. -/
def transpose120 (img : Image) : Image :=
  (List.range ((img.headD []).length)).map (fun h =>
    (List.range (((img.headD []).headD []).length)).map (fun w =>
      (List.range img.length).map (fun c =>
        ((img.getD c []).getD h []).getD w 0)))

/-- The de-normalization `(img * std + mean) * 255` of one pixel's channel
vector. -/
def denormalizePixel (pix : List ℚ) : List ℚ :=
  ((pix.zipWith (fun x s => x * s) normalize_std).zipWith
      (fun x m => x + m) normalize_mean).map (fun x => x * 255)

/-- The de-normalization stage of `visualize_img` (src/utils.py:56-65): the
transpose to height × width × channel followed by `(img * std + mean) * 255`,
broadcast over the channel axis. -/
def visualize_denorm (stim_img : Image) : Image :=
  (transpose120 stim_img).map (fun row => row.map denormalizePixel)

/-! ### Helper lemmas -/

theorem takeWhile_append_all {α : Type} {p : α → Bool} {l₁ l₂ : List α}
    (h : ∀ x ∈ l₁, p x = true) :
    (l₁ ++ l₂).takeWhile p = l₁ ++ l₂.takeWhile p := by
  induction l₁ with
  | nil => simp
  | cons a as ih =>
    simp only [List.cons_append, List.takeWhile_cons]
    rw [h a (by simp)]
    simp [ih (fun x hx => h x (by simp [hx]))]

theorem dropWhile_append_all {α : Type} {p : α → Bool} {l₁ l₂ : List α}
    (h : ∀ x ∈ l₁, p x = true) :
    (l₁ ++ l₂).dropWhile p = l₂.dropWhile p := by
  induction l₁ with
  | nil => simp
  | cons a as ih =>
    simp only [List.cons_append, List.dropWhile_cons]
    rw [h a (by simp)]
    simp [ih (fun x hx => h x (by simp [hx]))]

/-! ### Theorems about the claims -/

/-- Claim C1: when the cache file exists, `get_pca` returns its contents
unconditionally — the result does not depend on the inputs or on the requested
component count, no decomposition is fitted, and the cache is unchanged. -/
theorem get_pca_cache_hit (eng : PCAEngine) (d : PCACache) (X_train X_val : Mat)
    (n_components : Nat) :
    get_pca eng (some d) X_train X_val n_components =
      ((d.X_train_pca, d.X_val_pca), some d) := rfl

/-- Claim C8: on a cache miss, `get_pca` returns exactly the pair computed by
`compute_pca` and persists that same pair to the cache. -/
theorem get_pca_cache_miss (eng : PCAEngine) (X_train X_val : Mat) (n_components : Nat) :
    get_pca eng none X_train X_val n_components =
      (compute_pca eng X_train X_val n_components,
       some ⟨(compute_pca eng X_train X_val n_components).1,
             (compute_pca eng X_train X_val n_components).2⟩) := rfl

/-- Claim C2: on `["car1","car2","dog1"]` the encoder returns the mapping
`{"car": 0, "dog": 1}` (alphabetically ordered, deterministic) and the label
array `[0, 0, 1]`. -/
theorem encode_example :
    encode_object_base_labels ["car1", "car2", "dog1"] =
      some ([("car", 0), ("dog", 1)], [0, 0, 1]) := by decide

/-- Claim C3, counterexample: the base label is the maximal leading run of
ASCII letters, not the string with its trailing digits removed; on `"a1b"`
the code produces `"a"` while stripping trailing digits leaves `"a1b"`. -/
theorem base_label_strip_counterexample :
    baseNameOf "a1b" = some "a" ∧ stripTrailingDigits "a1b" = "a1b" ∧
    baseNameOf "a1b" ≠ some (stripTrailingDigits "a1b") := by decide

/-- Claim C3 (amended): for object names of the regular form — a nonempty
block of ASCII letters followed by a (possibly empty) block of ASCII digits —
the base label computed by the code equals the name with its trailing digits
removed, namely the letter block. -/
theorem base_label_eq_strip_trailing (a d : List Char)
    (ha : a ≠ []) (hall : ∀ c ∈ a, isAsciiAlpha c = true)
    (hd : ∀ c ∈ d, isAsciiDigit c = true) :
    baseNameOf (String.mk (a ++ d)) = some (stripTrailingDigits (String.mk (a ++ d))) ∧
    baseNameOf (String.mk (a ++ d)) = some (String.mk a) := by
  have htake : (a ++ d).takeWhile isAsciiAlpha = a := by
    rw [takeWhile_append_all hall]
    have hdt : d.takeWhile isAsciiAlpha = [] := by
      cases d with
      | nil => rfl
      | cons c cs =>
        have hdg := hd c (by simp)
        have hna : isAsciiAlpha c = false := by
          simp only [isAsciiAlpha, isAsciiDigit, decide_eq_true_eq] at hdg ⊢
          simp only [decide_eq_false_iff_not]
          omega
        simp [List.takeWhile_cons, hna]
    simp [hdt]
  have hdrop : ((a ++ d).reverse.dropWhile isAsciiDigit).reverse = a := by
    rw [List.reverse_append]
    rw [dropWhile_append_all (fun x hx => hd x (List.mem_reverse.mp hx))]
    cases hr : a.reverse with
    | nil => exact absurd (List.reverse_eq_nil_iff.mp hr) ha
    | cons c cs =>
      have hc : c ∈ a := List.mem_reverse.mp (by rw [hr]; simp)
      have hnd : isAsciiDigit c = false := by
        have hca := hall c hc
        simp only [isAsciiAlpha, isAsciiDigit, decide_eq_true_eq] at hca ⊢
        simp only [decide_eq_false_iff_not]
        omega
      rw [List.dropWhile_cons]
      rw [hnd]
      simp only [Bool.false_eq_true, if_false]
      rw [← hr, List.reverse_reverse]
  have hdata : (String.mk (a ++ d)).data = a ++ d := rfl
  constructor
  · simp only [baseNameOf, stripTrailingDigits, hdata, htake, if_neg ha, hdrop]
  · simp only [baseNameOf, hdata, htake, if_neg ha]

/-- Closed instantiation of the amended claim C3 at the concrete name
`"car12"`. -/
theorem base_label_eq_strip_trailing_witness :
    "car".data ≠ [] ∧ (∀ c ∈ "car".data, isAsciiAlpha c = true) ∧
    (∀ c ∈ "12".data, isAsciiDigit c = true) ∧
    (baseNameOf (String.mk ("car".data ++ "12".data)) =
       some (stripTrailingDigits (String.mk ("car".data ++ "12".data))) ∧
     baseNameOf (String.mk ("car".data ++ "12".data)) = some (String.mk "car".data)) :=
  ⟨by decide, by decide, by decide,
   base_label_eq_strip_trailing "car".data "12".data (by decide) (by decide) (by decide)⟩

/-- Claim C5: for a training matrix of shape (N, D) and requested component
count `k ≤ min(N, D)`, the transformed training matrix returned by
`compute_pca` has shape (N, k). -/
theorem compute_pca_train_shape (eng : PCAEngine) (X_train X_val : Mat) (k : Nat)
    (hk : k ≤ min X_train.length (matWidth X_train)) :
    (compute_pca eng X_train X_val k).1.length = X_train.length ∧
    ∀ row ∈ (compute_pca eng X_train X_val k).1, row.length = k := by
  constructor
  · simp [compute_pca, pcaTransform, centerWith]
  · intro row hrow
    simp only [compute_pca, pcaTransform, List.mem_map] at hrow
    obtain ⟨r, _, hrow⟩ := hrow
    rw [← hrow]
    simp [eng.components_length k X_train hk]

/-- Closed instantiation of claim C5 with the concrete engine `axisEngine` on
a 2 × 2 training matrix and one requested component. -/
theorem compute_pca_train_shape_witness :
    1 ≤ min ([[1, 0], [0, 1]] : Mat).length (matWidth [[1, 0], [0, 1]]) ∧
    ((compute_pca axisEngine [[1, 0], [0, 1]] [[1, 1]] 1).1.length =
        ([[1, 0], [0, 1]] : Mat).length ∧
      ∀ row ∈ (compute_pca axisEngine [[1, 0], [0, 1]] [[1, 1]] 1).1, row.length = 1) :=
  ⟨by decide, compute_pca_train_shape axisEngine [[1, 0], [0, 1]] [[1, 1]] 1 (by decide)⟩

/-- Claim C6: when the target dataset file already exists, `download_it_data`
performs no network access and leaves the filesystem state unchanged; and from
any starting state, two successive calls download at most once. -/
theorem download_idempotent (p : String) (s : FSState) :
    (itDataFileName p ∈ s.files → download_it_data p s = s) ∧
    ∀ s₀ : FSState,
      (download_it_data p (download_it_data p s₀)).downloads ≤ s₀.downloads + 1 := by
  constructor
  · intro h
    simp [download_it_data, h]
  · intro s₀
    by_cases h : itDataFileName p ∈ s₀.files
    · simp [download_it_data, h]
    · simp [download_it_data, h]

/-- Closed instantiation of claim C6: a state already holding the file is left
untouched, and a double call from the empty state downloads once. -/
theorem download_idempotent_witness :
    download_it_data "data" ⟨["data/IT_data.h5"], 0⟩ = ⟨["data/IT_data.h5"], 0⟩ ∧
    (download_it_data "data" (download_it_data "data" ⟨[], 0⟩)).downloads ≤ 0 + 1 :=
  ⟨(download_idempotent "data" ⟨["data/IT_data.h5"], 0⟩).1 (by decide),
   (download_idempotent "data" ⟨["data/IT_data.h5"], 0⟩).2 ⟨[], 0⟩⟩

theorem map_range_const {β : Type} (n : Nat) (f : Nat → β) (b : β) (h : ∀ i, f i = b) :
    (List.range n).map f = List.replicate n b := by
  rw [List.map_congr_left (fun i _ => h i)]
  simp [List.map_const']

theorem transpose120_zero (H W : Nat) :
    transpose120 (List.replicate 3 (List.replicate H (List.replicate W (0 : ℚ)))) =
      List.replicate H (List.replicate W (List.replicate 3 (0 : ℚ))) := by
  have hget : ∀ c h w : Nat,
      ((((List.replicate 3 (List.replicate H (List.replicate W (0 : ℚ)))).getD c []).getD
          h []).getD w 0) = 0 := by
    intro c h w
    simp only [List.getD_eq_getElem?_getD, List.getElem?_replicate]
    by_cases hc : c < 3
    · simp only [if_pos hc, Option.getD_some, List.getElem?_replicate]
      by_cases hh : h < H
      · simp only [if_pos hh, Option.getD_some, List.getElem?_replicate]
        by_cases hw : w < W
        · simp [if_pos hw]
        · simp [if_neg hw]
      · simp [if_neg hh]
    · simp [if_neg hc]
  cases H with
  | zero => rfl
  | succ H₁ =>
    unfold transpose120
    have e1 : (List.replicate 3 (List.replicate (H₁ + 1) (List.replicate W (0 : ℚ)))).headD [] =
        List.replicate (H₁ + 1) (List.replicate W (0 : ℚ)) := rfl
    rw [e1]
    have e2 : (List.replicate (H₁ + 1) (List.replicate W (0 : ℚ))).headD [] =
        List.replicate W (0 : ℚ) := rfl
    rw [e2]
    simp only [List.length_replicate]
    exact map_range_const _ _ _ (fun h => map_range_const _ _ _ (fun w =>
      map_range_const _ _ _ (fun c => hget c h w)))

/-- Claim C7: applying the de-normalization of `visualize_img` to an all-zero
normalized image of any height and width yields, in every pixel, exactly the
configured per-channel mean scaled by 255. -/
theorem denormalize_zero_image (H W : Nat) :
    visualize_denorm (List.replicate 3 (List.replicate H (List.replicate W (0 : ℚ)))) =
      List.replicate H (List.replicate W (normalize_mean.map (fun m => m * 255))) := by
  have h3 : List.replicate 3 (0 : ℚ) = [0, 0, 0] := rfl
  have hpix : denormalizePixel [0, 0, 0] = normalize_mean.map (fun m => m * 255) := by
    norm_num [denormalizePixel, normalize_mean, normalize_std]
  unfold visualize_denorm
  rw [transpose120_zero]
  simp only [List.map_replicate, h3, hpix]

theorem traverseOption_forall₂ {α β : Type} {f : α → Option β} {l : List α} :
    ∀ {bs : List β}, traverseOption f l = some bs →
      List.Forall₂ (fun a b => f a = some b) l bs := by
  induction l with
  | nil =>
    intro bs h
    simp only [traverseOption, Option.some.injEq] at h
    subst h
    exact List.Forall₂.nil
  | cons a as ih =>
    intro bs h
    simp only [traverseOption] at h
    cases hfa : f a with
    | none => rw [hfa] at h; simp at h
    | some b =>
      cases hrec : traverseOption f as with
      | none => rw [hfa, hrec] at h; simp at h
      | some cs =>
        rw [hfa, hrec] at h
        simp only [Option.some.injEq] at h
        subst h
        exact List.Forall₂.cons hfa (ih hrec)

theorem traverseOption_none_of_mem {α β : Type} {f : α → Option β} {l : List α} {a : α}
    (ha : a ∈ l) (hf : f a = none) : traverseOption f l = none := by
  induction l with
  | nil => cases ha
  | cons x xs ih =>
    simp only [traverseOption]
    rcases List.mem_cons.mp ha with h | h
    · subst h
      rw [hf]
    · rw [ih h]
      cases f x <;> rfl

theorem traverseOption_isSome {α β : Type} {f : α → Option β} {l : List α}
    (h : ∀ a ∈ l, (f a).isSome = true) : (traverseOption f l).isSome = true := by
  induction l with
  | nil => rfl
  | cons x xs ih =>
    obtain ⟨b, hb⟩ := Option.isSome_iff_exists.mp (h x (by simp))
    obtain ⟨bs, hbs⟩ :=
      Option.isSome_iff_exists.mp (ih (fun a ha => h a (by simp [ha])))
    simp [traverseOption, hb, hbs]

theorem forall₂_mem_right {α β : Type} {R : α → β → Prop} {l : List α} {bs : List β}
    (h : List.Forall₂ R l bs) : ∀ b ∈ bs, ∃ a ∈ l, R a b := by
  induction h with
  | nil => intro b hb; cases hb
  | cons hR _ ih =>
    intro b hb
    rcases List.mem_cons.mp hb with h1 | h1
    · subst h1
      exact ⟨_, by simp, hR⟩
    · obtain ⟨a, ha, hr⟩ := ih b h1
      exact ⟨a, by simp [ha], hr⟩

theorem baseNameOf_isSome_eq (s : String) :
    (baseNameOf s).isSome = startsWithAsciiAlpha s := by
  cases hs : s.data with
  | nil => simp [baseNameOf, startsWithAsciiAlpha, hs]
  | cons c cs =>
    cases hc : isAsciiAlpha c with
    | true => simp [baseNameOf, startsWithAsciiAlpha, hs, List.takeWhile_cons, hc]
    | false => simp [baseNameOf, startsWithAsciiAlpha, hs, List.takeWhile_cons, hc]

theorem enumIdx_map_snd (l : List String) : ∀ n : Nat,
    (enumIdx n l).map Prod.snd = List.range' n l.length := by
  induction l with
  | nil => intro n; rfl
  | cons b bs ih =>
    intro n
    simp only [enumIdx, List.map_cons, List.length_cons, List.range'_succ, ih]

theorem dictLookup_enumIdx_isSome {b : String} {l : List String} (hb : b ∈ l) :
    ∀ n : Nat, (dictLookup (enumIdx n l) b).isSome = true := by
  induction l with
  | nil => cases hb
  | cons a as ih =>
    intro n
    simp only [dictLookup, enumIdx, List.find?]
    cases hab : (a == b) with
    | true => simp
    | false =>
      have hmem : b ∈ as := by
        rcases List.mem_cons.mp hb with h1 | h1
        · subst h1
          simp at hab
        · exact h1
      simpa [dictLookup] using ih hmem (n + 1)

theorem dictLookup_enumIdx_lt {b : String} {v : Nat} {l : List String} :
    ∀ {n : Nat}, dictLookup (enumIdx n l) b = some v → v < n + l.length := by
  induction l with
  | nil => intro n h; simp [dictLookup, enumIdx, List.find?] at h
  | cons a as ih =>
    intro n h
    simp only [dictLookup, enumIdx, List.find?] at h
    cases hab : (a == b) with
    | true =>
      rw [hab] at h
      simp only [Option.map_some] at h
      have hv : v = n := by
        cases h
        rfl
      subst hv
      simp only [List.length_cons]
      omega
    | false =>
      rw [hab] at h
      have hlt := ih (show dictLookup (enumIdx (n + 1) as) b = some v by
        simpa [dictLookup] using h)
      simp only [List.length_cons]
      omega

/-- Claim C10: the encoder raises (returns `none`) whenever some input string
does not begin with an ASCII alphabetic character, because the anchored
leading-letters regex match fails there; and when every input string begins
with an ASCII letter the error branch is unreachable — the encoder returns a
result. -/
theorem encode_error_iff (objs : List String) :
    ((∃ s ∈ objs, startsWithAsciiAlpha s = false) → encode_object_base_labels objs = none) ∧
    ((∀ s ∈ objs, startsWithAsciiAlpha s = true) →
      (encode_object_base_labels objs).isSome = true) := by
  constructor
  · rintro ⟨s, hs, hbad⟩
    have hnone : baseNameOf s = none := by
      have hiso := baseNameOf_isSome_eq s
      rw [hbad] at hiso
      exact Option.not_isSome_iff_eq_none.mp (by simp [hiso])
    unfold encode_object_base_labels
    rw [traverseOption_none_of_mem hs hnone]
  · intro hall
    have h1 : (traverseOption baseNameOf objs).isSome = true :=
      traverseOption_isSome (fun a ha => by rw [baseNameOf_isSome_eq]; exact hall a ha)
    obtain ⟨bases, hbases⟩ := Option.isSome_iff_exists.mp h1
    unfold encode_object_base_labels
    rw [hbases]
    dsimp only
    have h2 : (traverseOption
        (dictLookup (enumIdx 0 (List.insertionSort strLeOrd bases.dedup))) bases).isSome =
        true := by
      apply traverseOption_isSome
      intro b hb
      exact dictLookup_enumIdx_isSome
        (((List.perm_insertionSort strLeOrd bases.dedup).mem_iff).mpr
          (List.mem_dedup.mpr hb)) 0
    obtain ⟨labels, hlabels⟩ := Option.isSome_iff_exists.mp h2
    rw [hlabels]
    rfl

/-- Closed instantiation of claim C10: `["1car"]` makes the encoder fail and
`["car1"]` makes it succeed. -/
theorem encode_error_iff_witness :
    encode_object_base_labels ["1car"] = none ∧
    (encode_object_base_labels ["car1"]).isSome = true :=
  ⟨(encode_error_iff ["1car"]).1 ⟨"1car", by decide, by decide⟩,
   (encode_error_iff ["car1"]).2 (by decide)⟩

/-- Claim C9: whenever the encoder succeeds, the label array is as long as the
input, the mapping's values are exactly 0..K-1 in order (K the number of
distinct base names), every label is the mapping's value for that sample's
base name, and hence every label lies below K. -/
theorem encode_invariants (objs bases : List String) (dict : List (String × Nat))
    (labels : List Nat)
    (hb : traverseOption baseNameOf objs = some bases)
    (he : encode_object_base_labels objs = some (dict, labels)) :
    labels.length = objs.length ∧
    dict.map Prod.snd = List.range bases.dedup.length ∧
    List.Forall₂ (fun b v => dictLookup dict b = some v) bases labels ∧
    ∀ v ∈ labels, v < bases.dedup.length := by
  unfold encode_object_base_labels at he
  rw [hb] at he
  dsimp only at he
  have hlen : (List.insertionSort strLeOrd bases.dedup).length = bases.dedup.length :=
    (List.perm_insertionSort strLeOrd bases.dedup).length_eq
  cases htr : traverseOption
      (dictLookup (enumIdx 0 (List.insertionSort strLeOrd bases.dedup))) bases with
  | none =>
    rw [htr] at he
    simp at he
  | some ls =>
    rw [htr] at he
    simp only [Option.some.injEq, Prod.mk.injEq] at he
    obtain ⟨hdict, hlab⟩ := he
    subst hdict
    subst hlab
    have f2a := traverseOption_forall₂ hb
    have f2b := traverseOption_forall₂ htr
    refine ⟨?_, ?_, f2b, ?_⟩
    · rw [← f2b.length_eq, ← f2a.length_eq]
    · rw [enumIdx_map_snd, hlen, List.range_eq_range']
    · intro v hv
      obtain ⟨b, _, hlook⟩ := forall₂_mem_right f2b v hv
      have hv2 := dictLookup_enumIdx_lt hlook
      rw [hlen] at hv2
      omega

/-- Closed instantiation of claim C9 on the spec's own example input. -/
theorem encode_invariants_witness :
    ([0, 0, 1] : List Nat).length = (["car1", "car2", "dog1"] : List String).length ∧
    ([("car", 0), ("dog", 1)] : List (String × Nat)).map Prod.snd =
      List.range (["car", "car", "dog"] : List String).dedup.length ∧
    List.Forall₂ (fun b v => dictLookup [("car", 0), ("dog", 1)] b = some v)
      ["car", "car", "dog"] [0, 0, 1] ∧
    ∀ v ∈ ([0, 0, 1] : List Nat), v < (["car", "car", "dog"] : List String).dedup.length :=
  encode_invariants ["car1", "car2", "dog1"] ["car", "car", "dog"]
    [("car", 0), ("dog", 1)] [0, 0, 1] (by decide) (by decide)

theorem zip_self_map {α β : Type} (f : α × α → β) (l : List α) :
    (l.zip l).map f = l.map (fun x => f (x, x)) := by
  induction l with
  | nil => rfl
  | cons x xs ih => simp [List.zip_cons_cons, ih]

theorem listMean_zero_of_forall {l : List ℚ} (h : ∀ x ∈ l, x = 0) : listMean l = 0 := by
  simp [listMean, List.sum_eq_zero h]

theorem listMean_of_forall_eq {l : List ℚ} {a : ℚ} (hne : l ≠ []) (h : ∀ x ∈ l, x = a) :
    listMean l = a := by
  rw [listMean, List.sum_eq_card_nsmul l a h, nsmul_eq_mul]
  have hl : (l.length : ℚ) ≠ 0 :=
    Nat.cast_ne_zero.mpr (fun h0 => hne (List.length_eq_zero.mp h0))
  exact mul_div_cancel_left₀ a hl

theorem ssRes_self (c : List ℚ) : ssRes c c = 0 := by
  unfold ssRes
  rw [zip_self_map]
  apply List.sum_eq_zero
  intro x hx
  simp only [List.mem_map] at hx
  obtain ⟨z, _, hz⟩ := hx
  simp [← hz]

theorem r2PerOutput_self (c : List ℚ) : r2PerOutput c c = 1 := by
  unfold r2PerOutput
  rw [ssRes_self]
  by_cases h : ssTot c ≠ 0
  · simp [h]
  · simp [h]

theorem msePerOutput_self (c : List ℚ) : msePerOutput c c = 0 := by
  unfold msePerOutput
  rw [zip_self_map]
  apply listMean_zero_of_forall
  intro x hx
  simp only [List.mem_map] at hx
  obtain ⟨z, _, hz⟩ := hx
  simp [← hz]

theorem maePerOutput_self (c : List ℚ) : maePerOutput c c = 0 := by
  unfold maePerOutput
  rw [zip_self_map]
  apply listMean_zero_of_forall
  intro x hx
  simp only [List.mem_map] at hx
  obtain ⟨z, _, hz⟩ := hx
  simp [← hz]

theorem ssTot_nonneg (c : List ℚ) : 0 ≤ ssTot c := by
  apply List.sum_nonneg
  intro x hx
  simp only [List.mem_map] at hx
  obtain ⟨z, _, hz⟩ := hx
  rw [← hz]
  positivity

theorem pearsonr_self (c : List ℚ) (h2 : 2 ≤ c.length) (hv : ssTot c ≠ 0) :
    pearsonr c c = some 1 := by
  unfold pearsonr
  rw [if_neg (by omega)]
  rw [if_neg (by simp [hv])]
  have hcov : ((c.zip c).map (fun q => (q.1 - listMean c) * (q.2 - listMean c))).sum =
      ssTot c := by
    rw [zip_self_map]
    unfold ssTot
    congr 1
    apply List.map_congr_left
    intro x _
    ring
  rw [hcov]
  have hnn : (0 : ℝ) ≤ ((ssTot c : ℚ) : ℝ) := by exact_mod_cast ssTot_nonneg c
  have hne : ((ssTot c : ℚ) : ℝ) ≠ 0 := by exact_mod_cast hv
  rw [Real.sqrt_mul_self hnn, div_self hne]

theorem columnsOf_length {y : Mat} {c : List ℚ} (hc : c ∈ columnsOf y) :
    c.length = y.length := by
  simp only [columnsOf, List.mem_map] at hc
  obtain ⟨i, _, hi⟩ := hc
  rw [← hi]
  simp [colOf]

theorem columnsOf_ne_nil {y : Mat} (h : 1 ≤ matWidth y) : columnsOf y ≠ [] := by
  have hl : (columnsOf y).length = matWidth y := by
    simp [columnsOf]
  intro hnil
  rw [hnil] at hl
  simp at hl
  omega

/-- Claim C4 (amended): for a matrix `y` with at least two rows and at least
two columns, none of whose columns is constant, `compute_metrics(y, y)`
returns R² = 1, MSE = 0, MAE = 0, and a per-output Pearson correlation of 1
for every output dimension.  (The row and non-constancy hypotheses are forced:
`pearsonr` errors below two observations and is NaN on a constant column.) -/
theorem compute_metrics_self (y : Mat) (hrows : 2 ≤ y.length) (hcols : 2 ≤ matWidth y)
    (hnc : ∀ c ∈ columnsOf y, ssTot c ≠ 0) :
    (compute_metrics y y).r2 = some 1 ∧
    (compute_metrics y y).mse = 0 ∧
    (compute_metrics y y).mae = 0 ∧
    ∀ r ∈ (compute_metrics y y).corr, r = some 1 := by
  have hne : columnsOf y ≠ [] := columnsOf_ne_nil (by omega)
  refine ⟨?_, ?_, ?_, ?_⟩
  · simp only [compute_metrics, r2_score]
    rw [if_neg (by omega)]
    rw [zip_self_map]
    congr 1
    apply listMean_of_forall_eq (by simpa using hne)
    intro x hx
    simp only [List.mem_map] at hx
    obtain ⟨c, _, hc⟩ := hx
    rw [← hc, r2PerOutput_self]
  · simp only [compute_metrics]
    rw [zip_self_map]
    apply listMean_zero_of_forall
    intro x hx
    simp only [List.mem_map] at hx
    obtain ⟨c, _, hc⟩ := hx
    rw [← hc, msePerOutput_self]
  · simp only [compute_metrics]
    rw [zip_self_map]
    apply listMean_zero_of_forall
    intro x hx
    simp only [List.mem_map] at hx
    obtain ⟨c, _, hc⟩ := hx
    rw [← hc, maePerOutput_self]
  · intro r hr
    simp only [compute_metrics] at hr
    rw [zip_self_map] at hr
    simp only [List.mem_map] at hr
    obtain ⟨c, hcmem, hc⟩ := hr
    rw [← hc]
    exact pearsonr_self c (by rw [columnsOf_length hcmem]; omega) (hnc c hcmem)

theorem corr_concrete :
    (compute_metrics [[0, 0], [0, 0]] [[0, 0], [0, 0]]).corr = [none, none] := by
  have hrange : List.range 2 = [0, 1] := by decide
  have hcols : columnsOf [[0, 0], [0, 0]] = [[0, 0], [0, 0]] := by
    simp [columnsOf, matWidth, colOf, hrange]
  have hss : ssTot [(0 : ℚ), 0] = 0 := by
    norm_num [ssTot, listMean]
  have hp : pearsonr [(0 : ℚ), 0] [(0 : ℚ), 0] = none := by
    unfold pearsonr
    rw [if_neg (by norm_num)]
    rw [if_pos (Or.inl hss)]
  simp [compute_metrics, hcols, hp]

/-- Claim C4, counterexample: the all-zero 2 × 2 matrix has two columns, yet
`compute_metrics(y, y)` does not yield a Pearson correlation of 1 for every
output dimension — both columns are constant and `pearsonr` is NaN there. -/
theorem compute_metrics_self_counterexample :
    2 ≤ matWidth [[0, 0], [0, 0]] ∧
    ¬ (∀ r ∈ (compute_metrics [[0, 0], [0, 0]] [[0, 0], [0, 0]]).corr, r = some 1) := by
  constructor
  · norm_num [matWidth]
  · intro h
    have hmem : (none : Option ℝ) ∈
        (compute_metrics [[0, 0], [0, 0]] [[0, 0], [0, 0]]).corr := by
      rw [corr_concrete]
      simp
    exact Option.noConfusion (h none hmem)

/-- Closed instantiation of the amended claim C4 on a concrete 2 × 2 matrix
with non-constant columns. -/
theorem compute_metrics_self_witness :
    2 ≤ ([[0, 1], [1, 0]] : Mat).length ∧ 2 ≤ matWidth [[0, 1], [1, 0]] ∧
    (∀ c ∈ columnsOf [[0, 1], [1, 0]], ssTot c ≠ 0) ∧
    ((compute_metrics [[0, 1], [1, 0]] [[0, 1], [1, 0]]).r2 = some 1 ∧
     (compute_metrics [[0, 1], [1, 0]] [[0, 1], [1, 0]]).mse = 0 ∧
     (compute_metrics [[0, 1], [1, 0]] [[0, 1], [1, 0]]).mae = 0 ∧
     ∀ r ∈ (compute_metrics [[0, 1], [1, 0]] [[0, 1], [1, 0]]).corr, r = some 1) := by
  have hrange : List.range 2 = [0, 1] := by decide
  have hnc : ∀ c ∈ columnsOf [[0, 1], [1, 0]], ssTot c ≠ 0 := by
    have hcols : columnsOf [[0, 1], [1, 0]] = [[0, 1], [1, 0]] := by
      simp [columnsOf, matWidth, colOf, hrange]
    rw [hcols]
    intro c hc
    rcases List.mem_cons.mp hc with h1 | h1
    · subst h1
      norm_num [ssTot, listMean]
    · rcases List.mem_cons.mp h1 with h2 | h2
      · subst h2
        norm_num [ssTot, listMean]
      · cases h2
  exact ⟨by norm_num, by norm_num [matWidth],
    hnc, compute_metrics_self [[0, 1], [1, 0]] (by norm_num) (by norm_num [matWidth]) hnc⟩
